import Mathlib

/-!
Verification of the py-boggle core (utils.py and model.py) against its
natural-language specification.

Shallow embedding conventions:
* Python strings are modelled as `List Char` (a Python `str` is a sequence of
  code points); string concatenation is `++`, `len` is `List.length`,
  `s.startswith(p)` is `p.isPrefixOf s`.
* A board (`List[List[str]]`) is a `List (List Sym)`; coordinates are `Int × Int`
  (neighbour arithmetic can go negative).
* Python list indexing `l[i]` (which wraps negative indices and raises
  `IndexError` out of range) is `pyGet`; a raised `IndexError` is `none`.
* Python `set(...)` of words is modelled by `List.dedup`: the sets in the source
  are used only for membership and emptiness tests, which are insensitive to
  order and multiplicity.
* The mutable backtracking recursion of `utils.py` is modelled as a function
  returning the list of `(path, word)` collection events in traversal order;
  the `data_update_func` callbacks of the source only ever append the event to
  a list or to a dict entry, so every search mode is a fold over that event
  list.  The recursion is driven by explicit fuel; `boardFuel` exceeds the
  number of board cells, which bounds the depth of the source's recursion
  (paths consist of distinct in-bounds cells).
-/

namespace Boggle

/-- A board cell symbol (a Python string). -/
abbrev Sym := List Char

/-- A word (a Python string). -/
abbrev Word := List Char

/-- A board coordinate `(row, col)`. -/
abbrev Coord := Int × Int

/-- `Board = List[List[str]]` from utils.py. -/
abbrev Board := List (List Sym)

/-- `Path = List[Tuple[int, int]]` from utils.py. -/
abbrev BPath := List Coord

/-- `NEIGHBOURS_DELTA` from utils.py, in source order N, NE, E, SE, S, SW, W, NW
(the dict's values in insertion order). -/
def NEIGHBOURS_DELTA : List (Int × Int) :=
  [(-1, 0), (-1, 1), (0, 1), (1, 1), (1, 0), (1, -1), (0, -1), (-1, -1)]

/-- Python list indexing `l[i]`: a negative index wraps to `len l + i`; an index
out of range raises `IndexError`, modelled as `none`. -/
def pyGet (l : List α) (i : Int) : Option α :=
  if 0 ≤ i then l.get? i.toNat
  else if 0 ≤ i + l.length then l.get? (i + l.length).toNat
  else none

/-- `__get_value_by_coordinate` from utils.py: `board[row][col]`, with `none`
for a raised `IndexError`. -/
def getValueByCoordinate (board : Board) (c : Coord) : Option Sym :=
  (pyGet board c.1).bind fun row => pyGet row c.2

/-- Total version of `__get_value_by_coordinate`, used where the source only
indexes coordinates it has bounds-checked (so the `IndexError` branch is
unreachable there). -/
def getValueD (board : Board) (c : Coord) : Sym :=
  (getValueByCoordinate board c).getD []

/-- `__are_neighbours` from utils.py: scans `NEIGHBOURS_DELTA` for a delta
taking the first coordinate to the second. -/
def areNeighbours (c1 c2 : Coord) : Bool :=
  NEIGHBOURS_DELTA.any fun d => (c1.1 + d.1, c1.2 + d.2) == c2

/-- Spec-side adjacency predicate: every consecutive pair of coordinates is
8-adjacent (the test `is_valid_path` performs pairwise and the search
maintains). -/
def chainAdjacent : BPath → Bool
  | [] => true
  | [_] => true
  | c1 :: c2 :: rest => areNeighbours c1 c2 && chainAdjacent (c2 :: rest)

/-- The word spelled by a path: the concatenation of the board values at its
coordinates, as accumulated by `is_valid_path` and the backtracking search. -/
def spelledWord (board : Board) (path : BPath) : Word :=
  (path.map (getValueD board)).flatten

/-- The loop of `is_valid_path` from utils.py, with the accumulated word as
first argument.  For each consecutive pair it first checks adjacency
(`return None` on failure, modelled `some none`) and only then reads the
board at the earlier cell; after the loop it reads the last cell and tests
membership.  A board read at an unindexable coordinate raises `IndexError`,
modelled as the outer `none`; the `[]` case is the raise at `path[-1]` on an
empty path. -/
def isValidPathGo (board : Board) (words : List Word) :
    Word → BPath → Option (Option Word)
  | _, [] => none
  | word, [c] =>
    match getValueByCoordinate board c with
    | none => none
    | some s =>
      if word ++ s ∈ words then some (some (word ++ s)) else some none
  | word, c1 :: c2 :: rest =>
    if ¬ areNeighbours c1 c2 then some none
    else
      match getValueByCoordinate board c1 with
      | none => none
      | some s => isValidPathGo board words (word ++ s) (c2 :: rest)

/-- `is_valid_path` from utils.py: walks the path checking each consecutive
pair for adjacency while concatenating the cell values, then tests the word's
membership; it never checks that coordinates are distinct.  `some (some w)`
models returning the word `w`, `some none` returning Python `None`, and
`none` a raised `IndexError` (empty path, or a board read at a coordinate the
board cannot index). -/
def isValidPath (board : Board) (path : BPath) (words : List Word) :
    Option (Option Word) :=
  isValidPathGo board words [] path

/-- `__is_coordinate_in_board` from utils.py:
`0 <= row < len(board) and 0 <= col < len(board[0])`. -/
def isCoordinateInBoard (board : Board) (c : Coord) : Bool :=
  0 ≤ c.1 && c.1 < (board.length : Int) &&
    0 ≤ c.2 && c.2 < ((board.headD []).length : Int)

/-- `__find_neighbour_coordinate` from utils.py. -/
def findNeighbourCoordinate (c : Coord) (delta : Int × Int) : Coord :=
  (c.1 + delta.1, c.2 + delta.2)

/-- `__filter_words_set_by_prefix` from utils.py:
`filter(lambda s: s.startswith(prefix), words_set)`. -/
def filterWordsSetByPfx (wordsSet : List Word) (pfx : Word) : List Word :=
  wordsSet.filter fun s => pfx.isPrefixOf s

/-- `__backtracking_action` from utils.py, as the list of `(path, word)`
collection events in traversal order.  `fuel` bounds the recursion depth;
the callers supply fuel exceeding the cell count of the board, which the
source's invariant (paths are distinct in-bounds cells) never exhausts. -/
def backtrackingAction (stop : Int → BPath → Word → Bool) (n : Int)
    (board : Board) :
    Nat → List Word → BPath → Word → List (BPath × Word)
  | 0, _, _, _ => []
  | fuel + 1, wordsSet, currPath, currWord =>
    if stop n currPath currWord then
      if currWord ∈ wordsSet then [(currPath, currWord)] else []
    else
      NEIGHBOURS_DELTA.foldl (fun acc delta =>
        let neighbour := findNeighbourCoordinate (currPath.getLastD (0, 0)) delta
        if ¬ isCoordinateInBoard board neighbour then acc
        else if neighbour ∈ currPath then acc
        else
          let newWord := currWord ++ getValueD board neighbour
          let filteredWords := filterWordsSetByPfx wordsSet newWord
          if filteredWords.isEmpty then acc
          else acc ++ backtrackingAction stop n board fuel filteredWords
            (currPath ++ [neighbour]) newWord) []

/-- One delta's contribution inside the neighbour loop of
`__backtracking_action` (proof-side restatement of the loop body). -/
def tryDelta (stop : Int → BPath → Word → Bool) (n : Int) (board : Board)
    (fuel : Nat) (wordsSet : List Word) (currPath : BPath) (currWord : Word)
    (delta : Int × Int) : List (BPath × Word) :=
  let neighbour := findNeighbourCoordinate (currPath.getLastD (0, 0)) delta
  if ¬ isCoordinateInBoard board neighbour then []
  else if neighbour ∈ currPath then []
  else
    let newWord := currWord ++ getValueD board neighbour
    let filteredWords := filterWordsSetByPfx wordsSet newWord
    if filteredWords.isEmpty then []
    else backtrackingAction stop n board fuel filteredWords
      (currPath ++ [neighbour]) newWord

/-- Fuel bound used for `__backtracking_action`: one more than the number of
in-bounds cells `len(board) * len(board[0])`. -/
def boardFuel (board : Board) : Nat :=
  board.length * (board.headD []).length + 1

/-- The body of the start loop of `__backtracking_start` for one starting
cell (proof-side restatement). -/
def startTry (stop : Int → BPath → Word → Bool) (n : Int) (board : Board)
    (wordsSet : List Word) (rowIndex colIndex : Nat) : List (BPath × Word) :=
  let coordinate : Coord := ((rowIndex : Int), (colIndex : Int))
  let currWord := getValueD board coordinate
  let filteredWords := filterWordsSetByPfx wordsSet currWord
  if filteredWords.isEmpty then []
  else backtrackingAction stop n board (boardFuel board) wordsSet
    [coordinate] currWord

/-- `__backtracking_start` from utils.py, as the list of `(path, word)`
collection events in traversal order.  Note the source computes
`filtered_words` only for the emptiness test and passes the full `words_set`
into the recursion, exactly as modelled here. -/
def backtrackingStart (stop : Int → BPath → Word → Bool) (n : Int)
    (board : Board) (words : List Word) : List (BPath × Word) :=
  let wordsSet := words.dedup
  (List.range board.length).foldl (fun acc rowIndex =>
    (List.range (board.getD rowIndex []).length).foldl
      (fun acc2 (colIndex : Nat) =>
      let coordinate : Coord := ((rowIndex : Int), (colIndex : Int))
      let currWord := getValueD board coordinate
      let filteredWords := filterWordsSetByPfx wordsSet currWord
      if filteredWords.isEmpty then acc2
      else acc2 ++ backtrackingAction stop n board (boardFuel board) wordsSet
        [coordinate] currWord) acc) []

/-- The stop predicate of `find_length_n_paths`: `len(path) == n`. -/
def stopPathLen (n : Int) (path : BPath) (_word : Word) : Bool :=
  (path.length : Int) == n

/-- The stop predicate of `find_length_n_words` and `max_score_paths`:
`len(word) == n`. -/
def stopWordLen (n : Int) (_path : BPath) (word : Word) : Bool :=
  (word.length : Int) == n

/-- `find_length_n_paths` from utils.py: the update callback appends a copy of
the current path, so the result is the first components of the events. -/
def findLengthNPaths (n : Int) (board : Board) (words : List Word) :
    List BPath :=
  (backtrackingStart stopPathLen n board words).map (·.1)

/-- `find_length_n_words` from utils.py. -/
def findLengthNWords (n : Int) (board : Board) (words : List Word) :
    List BPath :=
  (backtrackingStart stopWordLen n board words).map (·.1)

/-- The dict update of `max_score_paths`: append the path to the entry of its
word, creating the entry at the end if absent (Python dicts preserve
insertion order). -/
def dictInsert : List (Word × List BPath) → Word → BPath →
    List (Word × List BPath)
  | [], w, p => [(w, [p])]
  | (w', ps) :: rest, w, p =>
    if w' = w then (w', ps ++ [p]) :: rest else (w', ps) :: dictInsert rest w p

/-- Python `max(lst, key=len)`: the first element of maximal length (ties keep
the earlier element).  `max` of an empty list raises, but the dict entries of
`max_score_paths` are never empty; the `[]` case is unreachable there. -/
def pyMaxByLen (ps : List BPath) : BPath :=
  match ps with
  | [] => []
  | p :: rest => rest.foldl (fun best q => if best.length < q.length then q else best) p

/-- The concatenated event stream of the per-word-length passes of
`max_score_paths`.  The source iterates over `set(map(len, words))`, whose
iteration order Python leaves unspecified; `List.dedup` fixes one order, and
every property proved below is insensitive to that order (each word's events
all come from the single pass for its own length). -/
def maxScoreEvents (board : Board) (words : List Word) : List (BPath × Word) :=
  (((words.map (·.length)).dedup).map fun len =>
    backtrackingStart stopWordLen (len : Int) board words).flatten

/-- `max_score_paths` from utils.py: fold the events into the insertion-order
dict, then take `max(lst, key=len)` of each entry's path list. -/
def maxScorePaths (board : Board) (words : List Word) : List BPath :=
  ((maxScoreEvents board words).foldl (fun d e => dictInsert d e.2 e.1) []).map
    fun e => pyMaxByLen e.2

/-- The paths collected for one word, in traversal order (proof-side view of
one dict entry of `max_score_paths`). -/
def eventsFor (w : Word) (evs : List (BPath × Word)) : List BPath :=
  evs.filterMap fun e => if e.2 = w then some e.1 else none

/-- Lookup of the first entry of a word in the modelled dict (proof-side). -/
def dictLookup (w : Word) : List (Word × List BPath) → Option (List BPath)
  | [] => none
  | (w', ps) :: rest => if w' = w then some ps else dictLookup w rest

/-- The state of `Model` from model.py that the verified operations touch. -/
structure GameModel where
  board : Board
  wordsCollection : List Word
  wordsFound : List Word
  currentWord : Word
  currentPath : BPath
  score : Int
  deriving DecidableEq

/-- Python string slicing `w[:k]`: a negative stop index counts from the end
(clamping below at 0). -/
def pySliceTo (w : Word) (k : Int) : Word :=
  if 0 ≤ k then w.take k.toNat else w.take ((w.length : Int) + k).toNat

/-- `Model.update_word_and_path` from model.py.  The source indexes
`self.__board[y][x]` in both branches; an `IndexError` is modelled as `none`.
Note the undo branch uses `list.remove`, which removes the FIRST occurrence of
the coordinate, and that there is no membership guard on the add branch. -/
def updateWordAndPath (m : GameModel) (c : Coord) : Option GameModel :=
  match getValueByCoordinate m.board c with
  | none => none
  | some s =>
    if m.currentPath.getLast? = some c then
      some { m with
        currentPath := m.currentPath.erase c,
        currentWord := pySliceTo m.currentWord
          ((m.currentWord.length : Int) - (s.length : Int)) }
    else
      some { m with
        currentWord := m.currentWord ++ s,
        currentPath := m.currentPath ++ [c] }

/-- The four return branches of `Model.check_word` (the source returns four
distinct message strings; the claims name them NotAWord, AlreadyFound,
FoundShort, FoundLong). -/
inductive CheckOutcome where
  | notAWord
  | alreadyFound
  | foundShort
  | foundLong
  deriving DecidableEq

/-- `Model.check_word` from model.py, paired with the updated state.
`__increase_score` adds `int(math.pow(len(path), 2))`, which equals the exact
integer square for every list length representable here (a float double is
exact on these magnitudes), modelled as `(length)^2`. -/
def checkWord (m : GameModel) : CheckOutcome × GameModel :=
  if m.currentWord ∉ m.wordsCollection then (CheckOutcome.notAWord, m)
  else if m.currentWord ∈ m.wordsFound then (CheckOutcome.alreadyFound, m)
  else
    let m' := { m with
      wordsFound := m.wordsFound ++ [m.currentWord],
      score := m.score + (m.currentPath.length : Int) ^ 2 }
    if m.currentWord.length < 6 then (CheckOutcome.foundShort, m')
    else (CheckOutcome.foundLong, m')

/-- `Model.__is_coordinate_in_boundaries` from model.py (textually the same
bound test as `__is_coordinate_in_board` in utils.py). -/
def isCoordinateInBoundaries (board : Board) (c : Coord) : Bool :=
  0 ≤ c.1 && c.1 < (board.length : Int) &&
    0 ≤ c.2 && c.2 < ((board.headD []).length : Int)

/-- `Model.get_buttons_to_enable` from model.py.  On an empty current path the
source raises `IndexError` at `self.__current_path[-1]`, modelled as `none`. -/
def getButtonsToEnable (m : GameModel) : Option (List Coord) :=
  match m.currentPath.getLast? with
  | none => none
  | some base =>
    some (NEIGHBOURS_DELTA.foldl (fun acc delta =>
      let neighbourCoordinate : Coord := (base.1 + delta.1, base.2 + delta.2)
      if isCoordinateInBoundaries m.board neighbourCoordinate &&
          ¬ neighbourCoordinate ∈ m.currentPath then
        acc ++ [neighbourCoordinate]
      else acc) [base])

/-- Spec-side Grid invariant (§3 of the spec): all rows have equal length. -/
def Rectangular (board : Board) : Prop :=
  ∀ row ∈ board, row.length = (board.headD []).length

/-- Spec-side Grid invariant (§3 of the spec): every cell holds a symbol of at
least one character. -/
def CellsNonempty (board : Board) : Prop :=
  ∀ row ∈ board, ∀ s ∈ row, s ≠ []

/-- A valid board path in the sense of the spec's data model: non-empty,
pairwise-distinct, in-bounds coordinates with consecutive pairs 8-adjacent. -/
def ValidPath (board : Board) (p : BPath) : Prop :=
  p ≠ [] ∧ p.Nodup ∧ chainAdjacent p = true ∧
    ∀ c ∈ p, isCoordinateInBoard board c = true

/-- A fold whose step appends a per-element contribution is the concatenation
of the contributions. -/
theorem foldl_append_eq_flatten {α β : Type} (f : β → List α)
    (step : List α → β → List α) (hstep : ∀ acc d, step acc d = acc ++ f d) :
    ∀ (ds : List β) (acc : List α),
      ds.foldl step acc = acc ++ (ds.map f).flatten := by
  intro ds
  induction ds with
  | nil => intro acc; simp
  | cons d ds ih => intro acc; simp [hstep, ih, List.append_assoc]

/-- Unfolding of `backtrackingAction` at positive fuel: the neighbour loop is
the concatenation of the per-delta contributions. -/
theorem backtrackingAction_succ (stop : Int → BPath → Word → Bool) (n : Int)
    (board : Board) (fuel : Nat) (wordsSet : List Word) (currPath : BPath)
    (currWord : Word) :
    backtrackingAction stop n board (fuel + 1) wordsSet currPath currWord =
      if stop n currPath currWord then
        (if currWord ∈ wordsSet then [(currPath, currWord)] else [])
      else
        (NEIGHBOURS_DELTA.map
          (tryDelta stop n board fuel wordsSet currPath currWord)).flatten := by
  rw [backtrackingAction]
  split
  · rfl
  · rw [foldl_append_eq_flatten
      (tryDelta stop n board fuel wordsSet currPath currWord) _ ?_ _ []]
    · rw [List.nil_append]
    · intro acc d
      simp only [tryDelta]
      split
      · rw [List.append_nil]
      · split
        · rw [List.append_nil]
        · split
          · rw [List.append_nil]
          · rfl

/-- Unfolding of `backtrackingStart`: the double start loop is the
concatenation of the per-cell contributions `startTry`. -/
theorem backtrackingStart_eq (stop : Int → BPath → Word → Bool) (n : Int)
    (board : Board) (words : List Word) :
    backtrackingStart stop n board words =
      ((List.range board.length).map fun rowIndex =>
        ((List.range (board.getD rowIndex []).length).map fun colIndex =>
          startTry stop n board words.dedup rowIndex colIndex).flatten).flatten := by
  rw [backtrackingStart]
  rw [foldl_append_eq_flatten (fun rowIndex =>
      ((List.range (board.getD rowIndex []).length).map fun colIndex =>
        startTry stop n board words.dedup rowIndex colIndex).flatten) _ ?_ _ []]
  · rw [List.nil_append]
  · intro acc rowIndex
    rw [foldl_append_eq_flatten
      (startTry stop n board words.dedup rowIndex) _ ?_ _ acc]
    intro acc2 colIndex
    simp only [startTry]
    split
    · rw [List.append_nil]
    · rfl

/-- `areNeighbours` holds exactly when some delta of `NEIGHBOURS_DELTA` maps
the first coordinate to the second. -/
theorem areNeighbours_iff (a b : Coord) :
    areNeighbours a b = true ↔
      ∃ d ∈ NEIGHBOURS_DELTA, findNeighbourCoordinate a d = b := by
  simp [areNeighbours, List.any_eq_true, findNeighbourCoordinate,
    Prod.ext_iff]

/-- Appending a neighbour of the last cell preserves chain adjacency. -/
theorem chainAdjacent_append_singleton (p : BPath) (c : Coord) :
    p ≠ [] → chainAdjacent p = true →
    areNeighbours (p.getLastD (0, 0)) c = true →
    chainAdjacent (p ++ [c]) = true := by
  induction p with
  | nil => intro h; exact absurd rfl h
  | cons a p ih =>
    intro _ hchain hnb
    cases p with
    | nil => simpa [chainAdjacent] using hnb
    | cons b p =>
      simp only [chainAdjacent, Bool.and_eq_true] at hchain
      simp only [List.cons_append, chainAdjacent, Bool.and_eq_true]
      refine ⟨hchain.1, ?_⟩
      exact ih (by simp) hchain.2 (by simpa using hnb)

/-- In a chain-adjacent list, the cell following a non-empty block is a
neighbour of the block's last cell. -/
theorem chainAdjacent_split (xs : BPath) (c : Coord) (ys : BPath) :
    chainAdjacent (xs ++ c :: ys) = true → xs ≠ [] →
    areNeighbours (xs.getLastD (0, 0)) c = true := by
  induction xs with
  | nil => intro _ h; exact absurd rfl h
  | cons a xs ih =>
    intro hchain _
    cases xs with
    | nil =>
      simp only [List.nil_append, List.cons_append, chainAdjacent,
        Bool.and_eq_true] at hchain
      simpa using hchain.1
    | cons b xs =>
      simp only [List.cons_append, chainAdjacent, Bool.and_eq_true] at hchain
      exact ih hchain.2 (by simp)

theorem spelledWord_append (board : Board) (xs ys : BPath) :
    spelledWord board (xs ++ ys) =
      spelledWord board xs ++ spelledWord board ys := by
  simp [spelledWord]

theorem spelledWord_singleton (board : Board) (c : Coord) :
    spelledWord board [c] = getValueD board c := by
  simp [spelledWord]

theorem pyGet_nonneg {α : Type} (l : List α) (i : Int) (h : 0 ≤ i) :
    pyGet l i = l.get? i.toNat := by
  simp [pyGet, h]

/-- Unpacking the source's bound test into inequalities. -/
theorem isCoordinateInBoard_iff (board : Board) (c : Coord) :
    isCoordinateInBoard board c = true ↔
      0 ≤ c.1 ∧ c.1 < (board.length : Int) ∧
        0 ≤ c.2 ∧ c.2 < ((board.headD []).length : Int) := by
  simp [isCoordinateInBoard, and_assoc]

/-- The value at an in-bounds coordinate of a rectangular board is one of the
board's cells. -/
theorem getValueD_mem (board : Board) (c : Coord) (hrect : Rectangular board)
    (hc : isCoordinateInBoard board c = true) :
    ∃ row ∈ board, getValueD board c ∈ row := by
  rw [isCoordinateInBoard_iff] at hc
  obtain ⟨h1, h2, h3, h4⟩ := hc
  have hrow : c.1.toNat < board.length := by omega
  have hget : pyGet board c.1 = some (board.get ⟨c.1.toNat, hrow⟩) := by
    rw [pyGet_nonneg _ _ h1, List.get?_eq_get hrow]
  have hmemrow : board.get ⟨c.1.toNat, hrow⟩ ∈ board := List.get_mem _ _ _
  have hlen : (board.get ⟨c.1.toNat, hrow⟩).length = (board.headD []).length :=
    hrect _ hmemrow
  have hcol : c.2.toNat < (board.get ⟨c.1.toNat, hrow⟩).length := by omega
  have hget2 : pyGet (board.get ⟨c.1.toNat, hrow⟩) c.2 =
      some ((board.get ⟨c.1.toNat, hrow⟩).get ⟨c.2.toNat, hcol⟩) := by
    rw [pyGet_nonneg _ _ h3, List.get?_eq_get hcol]
  refine ⟨board.get ⟨c.1.toNat, hrow⟩, hmemrow, ?_⟩
  have hval : getValueD board c =
      (board.get ⟨c.1.toNat, hrow⟩).get ⟨c.2.toNat, hcol⟩ := by
    rw [getValueD, getValueByCoordinate]
    simp only [hget, hget2, Option.some_bind, Option.getD_some]
  rw [hval]
  exact List.get_mem _ _ _

/-- On a rectangular board with non-empty cell symbols, the value at an
in-bounds coordinate is non-empty. -/
theorem getValueD_ne_nil (board : Board) (c : Coord)
    (hrect : Rectangular board) (hcells : CellsNonempty board)
    (hc : isCoordinateInBoard board c = true) :
    getValueD board c ≠ [] := by
  obtain ⟨row, hrow, hcell⟩ := getValueD_mem board c hrect hc
  exact hcells row hrow _ hcell

/-- A non-empty path of in-bounds cells on a rectangular board with non-empty
symbols spells a non-empty word. -/
theorem spelledWord_ne_nil (board : Board) (p : BPath)
    (hrect : Rectangular board) (hcells : CellsNonempty board)
    (hne : p ≠ []) (hin : ∀ c ∈ p, isCoordinateInBoard board c = true) :
    spelledWord board p ≠ [] := by
  cases p with
  | nil => exact absurd rfl hne
  | cons c p =>
    have : spelledWord board (c :: p) =
        getValueD board c ++ spelledWord board p := by
      simp [spelledWord]
    rw [this]
    intro hcontra
    exact getValueD_ne_nil board c hrect hcells (hin c (by simp))
      (by simpa using List.append_eq_nil.mp hcontra |>.1)

/-- A duplicate-free list of in-bounds coordinates has at most
`len(board) * len(board[0])` elements. -/
theorem nodup_inboard_length_le (board : Board) (p : BPath)
    (hnd : p.Nodup) (hin : ∀ c ∈ p, isCoordinateInBoard board c = true) :
    p.length ≤ board.length * (board.headD []).length := by
  classical
  set box : Finset Coord :=
    (Finset.Ico (0 : Int) (board.length : Int)) ×ˢ
      (Finset.Ico (0 : Int) ((board.headD []).length : Int)) with hbox
  have hsub : p.toFinset ⊆ box := by
    intro c hc
    rw [List.mem_toFinset] at hc
    have := (isCoordinateInBoard_iff board c).mp (hin c hc)
    simp only [hbox, Finset.mem_product, Finset.mem_Ico]
    exact ⟨⟨this.1, this.2.1⟩, ⟨this.2.2.1, this.2.2.2⟩⟩
  have hcard : box.card = board.length * (board.headD []).length := by
    simp [hbox, Int.card_Ico]
  calc p.length = p.toFinset.card := (List.toFinset_card_of_nodup hnd).symm
    _ ≤ box.card := Finset.card_le_card hsub
    _ = _ := hcard

/-- Soundness invariant of `__backtracking_action`: every collected event is a
valid path, its word is the path's spelled word, the stop predicate accepted
it, and the word belongs to the current words set. -/
theorem backtrackingAction_sound (stop : Int → BPath → Word → Bool) (n : Int)
    (board : Board) :
    ∀ (fuel : Nat) (wordsSet : List Word) (currPath : BPath) (currWord : Word)
      (p : BPath) (w : Word),
      (p, w) ∈ backtrackingAction stop n board fuel wordsSet currPath currWord →
      currPath ≠ [] → currPath.Nodup → chainAdjacent currPath = true →
      (∀ c ∈ currPath, isCoordinateInBoard board c = true) →
      currWord = spelledWord board currPath →
      stop n p w = true ∧ ValidPath board p ∧ w = spelledWord board p ∧
        w ∈ wordsSet := by
  intro fuel
  induction fuel with
  | zero =>
    intro _ _ _ _ _ h
    simp [backtrackingAction] at h
  | succ fuel ih =>
    intro wordsSet currPath currWord p w hmem hne hnd hchain hin hword
    rw [backtrackingAction_succ] at hmem
    by_cases hstop : stop n currPath currWord = true
    · rw [if_pos hstop] at hmem
      by_cases hw : currWord ∈ wordsSet
      · rw [if_pos hw] at hmem
        simp only [List.mem_singleton, Prod.mk.injEq] at hmem
        obtain ⟨hp, hww⟩ := hmem
        subst hp; subst hww
        exact ⟨hstop, ⟨hne, hnd, hchain, hin⟩, hword, hw⟩
      · rw [if_neg hw] at hmem
        simp at hmem
    · rw [if_neg hstop] at hmem
      rw [List.mem_flatten] at hmem
      obtain ⟨l, hl, hpl⟩ := hmem
      rw [List.mem_map] at hl
      obtain ⟨delta, hdelta, rfl⟩ := hl
      simp only [tryDelta] at hpl
      split at hpl
      · simp at hpl
      · split at hpl
        · simp at hpl
        · split at hpl
          · simp at hpl
          · rename_i hinb hnotmem hfil
            rw [not_not] at hinb
            have hnb : areNeighbours (currPath.getLastD (0, 0))
                (findNeighbourCoordinate (currPath.getLastD (0, 0)) delta) =
                  true :=
              (areNeighbours_iff _ _).mpr ⟨delta, hdelta, rfl⟩
            have hres := ih _ _ _ _ _ hpl (by simp)
              (by
                rw [List.nodup_append]
                exact ⟨hnd, List.nodup_singleton _, by
                  intro a ha hb
                  rw [List.mem_singleton] at hb
                  subst hb
                  exact hnotmem ha⟩)
              (chainAdjacent_append_singleton _ _ hne hchain hnb)
              (by
                intro c hc
                rw [List.mem_append, List.mem_singleton] at hc
                rcases hc with hc | hc
                · exact hin c hc
                · subst hc; exact hinb)
              (by rw [spelledWord_append, spelledWord_singleton, hword])
            refine ⟨hres.1, hres.2.1, hres.2.2.1, ?_⟩
            have hwfil := hres.2.2.2
            rw [filterWordsSetByPfx, List.mem_filter] at hwfil
            exact hwfil.1

/-- A row fetched by a valid row index of a rectangular board has the width
`len(board[0])`. -/
theorem getD_row_length (board : Board) (rowIndex : Nat)
    (hrect : Rectangular board) (hrow : rowIndex < board.length) :
    (board.getD rowIndex []).length = (board.headD []).length := by
  have hget : board.getD rowIndex [] = board.get ⟨rowIndex, hrow⟩ := by
    rw [List.getD_eq_getD_get?, List.get?_eq_get hrow, Option.getD_some]
  rw [hget]
  exact hrect _ (List.get_mem _ _ _)

/-- Soundness of `__backtracking_start` on a rectangular board: every
collected event is a valid path whose spelled word is in the words
collection and satisfies the stop predicate. -/
theorem backtrackingStart_sound (stop : Int → BPath → Word → Bool) (n : Int)
    (board : Board) (words : List Word) (p : BPath) (w : Word)
    (hrect : Rectangular board)
    (hmem : (p, w) ∈ backtrackingStart stop n board words) :
    stop n p w = true ∧ ValidPath board p ∧ w = spelledWord board p ∧
      w ∈ words := by
  rw [backtrackingStart_eq] at hmem
  rw [List.mem_flatten] at hmem
  obtain ⟨l, hl, hpl⟩ := hmem
  rw [List.mem_map] at hl
  obtain ⟨rowIndex, hrow, rfl⟩ := hl
  rw [List.mem_flatten] at hpl
  obtain ⟨l2, hl2, hpl2⟩ := hpl
  rw [List.mem_map] at hl2
  obtain ⟨colIndex, hcol, rfl⟩ := hl2
  rw [List.mem_range] at hrow hcol
  simp only [startTry] at hpl2
  split at hpl2
  · simp at hpl2
  · have hinb : isCoordinateInBoard board
        ((rowIndex : Int), (colIndex : Int)) = true := by
      rw [isCoordinateInBoard_iff]
      have hwidth := getD_row_length board rowIndex hrect hrow
      refine ⟨by positivity, ?_, by positivity, ?_⟩
      · show (rowIndex : Int) < (board.length : Int)
        exact_mod_cast hrow
      · show (colIndex : Int) < ((board.headD []).length : Int)
        rw [← hwidth]
        exact_mod_cast hcol
    have hres := backtrackingAction_sound stop n board _ _ _ _ _ _ hpl2
      (by simp) (List.nodup_singleton _) (by rfl)
      (by
        intro c hc
        rw [List.mem_singleton] at hc
        subst hc
        exact hinb)
      (spelledWord_singleton board _).symm
    exact ⟨hres.1, hres.2.1, hres.2.2.1, List.mem_dedup.mp hres.2.2.2⟩

/-- Completeness of `__backtracking_action` for the word-length stop
predicate: a valid path whose spelled word survives in the current words set
and has exactly the target character length is collected, given enough fuel
for its remaining cells.  Prefix pruning removes no such path because the
target word itself witnesses every prefix filter. -/
theorem backtrackingAction_complete (board : Board) (n : Int)
    (hrect : Rectangular board) (hcells : CellsNonempty board) :
    ∀ (rest : BPath) (fuel : Nat) (wordsSet : List Word) (currPath : BPath),
      currPath ≠ [] →
      ValidPath board (currPath ++ rest) →
      spelledWord board (currPath ++ rest) ∈ wordsSet →
      ((spelledWord board (currPath ++ rest)).length : Int) = n →
      rest.length + 1 ≤ fuel →
      (currPath ++ rest, spelledWord board (currPath ++ rest)) ∈
        backtrackingAction stopWordLen n board fuel wordsSet currPath
          (spelledWord board currPath) := by
  intro rest
  induction rest with
  | nil =>
    intro fuel wordsSet currPath hne hvalid hw hlen hfuel
    obtain ⟨fuel, rfl⟩ : ∃ f, fuel = f + 1 := ⟨fuel - 1, by omega⟩
    rw [backtrackingAction_succ]
    rw [List.append_nil] at hw hlen ⊢
    have hstop : stopWordLen n currPath (spelledWord board currPath) = true := by
      simp [stopWordLen, hlen]
    rw [if_pos hstop, if_pos hw]
    simp
  | cons c rest ih =>
    intro fuel wordsSet currPath hne hvalid hw hlen hfuel
    obtain ⟨fuel, rfl⟩ : ∃ f, fuel = f + 1 := ⟨fuel - 1, by omega⟩
    rw [backtrackingAction_succ]
    have hinall := hvalid.2.2.2
    have hsublen : (spelledWord board currPath).length <
        (spelledWord board (currPath ++ c :: rest)).length := by
      rw [spelledWord_append]
      have hnn : spelledWord board (c :: rest) ≠ [] :=
        spelledWord_ne_nil board _ hrect hcells (by simp)
          (fun x hx => hinall x (by simp [hx]))
      rw [List.length_append]
      have := List.length_pos.mpr hnn
      omega
    have hstop : stopWordLen n currPath (spelledWord board currPath) = false := by
      simp only [stopWordLen, beq_eq_false_iff_ne, ne_eq]
      intro hcontra
      rw [← hlen] at hcontra
      have : (spelledWord board currPath).length =
          (spelledWord board (currPath ++ c :: rest)).length := by
        exact_mod_cast hcontra
      omega
    rw [if_neg (by simp [hstop])]
    rw [List.mem_flatten]
    have hnb : areNeighbours (currPath.getLastD (0, 0)) c = true :=
      chainAdjacent_split currPath c rest hvalid.2.2.1 hne
    obtain ⟨delta, hdelta, hfind⟩ := (areNeighbours_iff _ _).mp hnb
    refine ⟨tryDelta stopWordLen n board fuel wordsSet currPath
      (spelledWord board currPath) delta, List.mem_map_of_mem _ hdelta, ?_⟩
    simp only [tryDelta]
    rw [hfind]
    have hinb : isCoordinateInBoard board c = true := hinall c (by simp)
    rw [if_neg (by simp [hinb])]
    have hcnot : c ∉ currPath := by
      have hnd := hvalid.2.1
      rw [List.nodup_append] at hnd
      intro hcc
      exact hnd.2.2 hcc (by simp)
    rw [if_neg hcnot]
    have hspell1 : spelledWord board currPath ++ getValueD board c =
        spelledWord board (currPath ++ [c]) := by
      rw [spelledWord_append, spelledWord_singleton]
    have hwpfx : (spelledWord board currPath ++
        getValueD board c).isPrefixOf
          (spelledWord board (currPath ++ c :: rest)) = true := by
      rw [List.isPrefixOf_iff_prefix, hspell1]
      have hpfx := List.prefix_append (spelledWord board (currPath ++ [c]))
        (spelledWord board rest)
      rw [← spelledWord_append] at hpfx
      simpa using hpfx
    have hwfil : spelledWord board (currPath ++ c :: rest) ∈
        filterWordsSetByPfx wordsSet
          (spelledWord board currPath ++ getValueD board c) := by
      rw [filterWordsSetByPfx, List.mem_filter]
      exact ⟨hw, hwpfx⟩
    rw [if_neg (by
      rw [List.isEmpty_iff]
      exact List.ne_nil_of_mem hwfil)]
    have hassoc : currPath ++ c :: rest = (currPath ++ [c]) ++ rest := by simp
    have hres := ih fuel
      (filterWordsSetByPfx wordsSet
        (spelledWord board currPath ++ getValueD board c))
      (currPath ++ [c]) (by simp)
      (by rw [← hassoc]; exact hvalid)
      (by rw [← hassoc]; exact hwfil)
      (by rw [← hassoc]; exact hlen)
      (by simp at hfuel ⊢; omega)
    rw [← hspell1] at hres
    rw [hassoc]
    exact hres

/-- Completeness of `__backtracking_start` for the word-length stop predicate:
every valid path spelling a collection word of exactly the target character
length is collected. -/
theorem backtrackingStart_complete (board : Board) (n : Int)
    (words : List Word) (p : BPath) (hrect : Rectangular board)
    (hcells : CellsNonempty board) (hvalid : ValidPath board p)
    (hw : spelledWord board p ∈ words)
    (hlen : ((spelledWord board p).length : Int) = n) :
    (p, spelledWord board p) ∈ backtrackingStart stopWordLen n board words := by
  rw [backtrackingStart_eq]
  obtain ⟨c, p', rfl⟩ : ∃ c p', p = c :: p' := by
    cases p with
    | nil => exact absurd rfl hvalid.1
    | cons c p' => exact ⟨c, p', rfl⟩
  have hinb0 := hvalid.2.2.2 c (by simp)
  have hinb := (isCoordinateInBoard_iff board c).mp hinb0
  obtain ⟨h1, h2, h3, h4⟩ := hinb
  have hrowlt : c.1.toNat < board.length := by omega
  have hcollt : c.2.toNat < (board.getD c.1.toNat []).length := by
    rw [getD_row_length board c.1.toNat hrect hrowlt]
    omega
  rw [List.mem_flatten]
  refine ⟨((List.range (board.getD c.1.toNat []).length).map fun colIndex =>
      startTry stopWordLen n board words.dedup c.1.toNat colIndex).flatten,
    List.mem_map_of_mem _ (List.mem_range.mpr hrowlt), ?_⟩
  rw [List.mem_flatten]
  refine ⟨startTry stopWordLen n board words.dedup c.1.toNat c.2.toNat,
    List.mem_map_of_mem _ (List.mem_range.mpr hcollt), ?_⟩
  have hc : ((c.1.toNat : Int), (c.2.toNat : Int)) = c := by
    cases c with
    | mk a b =>
      simp only [Prod.mk.injEq]
      exact ⟨Int.toNat_of_nonneg h1, Int.toNat_of_nonneg h3⟩
  simp only [startTry]
  rw [hc]
  have hwdedup : spelledWord board (c :: p') ∈ words.dedup :=
    List.mem_dedup.mpr hw
  have hsplit : spelledWord board (c :: p') =
      getValueD board c ++ spelledWord board p' := by
    simp [spelledWord]
  have hpfx0 : (getValueD board c).isPrefixOf
      (spelledWord board (c :: p')) = true := by
    rw [List.isPrefixOf_iff_prefix, hsplit]
    exact List.prefix_append _ _
  have hfilmem : spelledWord board (c :: p') ∈
      filterWordsSetByPfx words.dedup (getValueD board c) := by
    rw [filterWordsSetByPfx, List.mem_filter]
    exact ⟨hwdedup, hpfx0⟩
  rw [if_neg (by
    rw [List.isEmpty_iff]
    exact List.ne_nil_of_mem hfilmem)]
  have hfuel : p'.length + 1 ≤ boardFuel board := by
    have hbound := nodup_inboard_length_le board (c :: p') hvalid.2.1
      hvalid.2.2.2
    rw [List.length_cons] at hbound
    rw [boardFuel]
    omega
  have hres := backtrackingAction_complete board n hrect hcells p'
    (boardFuel board) words.dedup [c] (by simp)
    (by simpa using hvalid) (by simpa using hwdedup) (by simpa using hlen)
    hfuel
  rw [spelledWord_singleton] at hres
  simpa using hres

/-- C1: on a rectangular board, every path returned by `find_length_n_paths`
has cell length exactly `n`, consists of pairwise-distinct in-bounds
coordinates with every consecutive pair 8-adjacent, and its spelled word is
in the word collection. -/
theorem find_length_n_paths_sound (board : Board) (words : List Word)
    (n : Int) (p : BPath) (hrect : Rectangular board)
    (hp : p ∈ findLengthNPaths n board words) :
    (p.length : Int) = n ∧ p ≠ [] ∧ p.Nodup ∧ chainAdjacent p = true ∧
      (∀ c ∈ p, isCoordinateInBoard board c = true) ∧
      spelledWord board p ∈ words := by
  rw [findLengthNPaths, List.mem_map] at hp
  obtain ⟨⟨p', w⟩, hmem, rfl⟩ := hp
  obtain ⟨hstop, hvalid, hww, hwords⟩ :=
    backtrackingStart_sound _ _ _ _ _ _ hrect hmem
  rw [stopPathLen, beq_iff_eq] at hstop
  rw [hww] at hwords
  exact ⟨hstop, hvalid.1, hvalid.2.1, hvalid.2.2.1, hvalid.2.2.2, hwords⟩

/-- Witness for C1 on the spec's example board. -/
theorem find_length_n_paths_sound_witness :
    (((3 : Int) : Int) = 3 ∧
        ([((0 : Int), (0 : Int)), (0, 1), (0, 2)] : BPath) ≠ [] ∧
        ([((0 : Int), (0 : Int)), (0, 1), (0, 2)] : BPath).Nodup ∧
        chainAdjacent [((0 : Int), (0 : Int)), (0, 1), (0, 2)] = true ∧
        (∀ c ∈ ([((0 : Int), (0 : Int)), (0, 1), (0, 2)] : BPath),
          isCoordinateInBoard [[['c'], ['a'], ['t']]] c = true) ∧
        spelledWord [[['c'], ['a'], ['t']]]
          [((0 : Int), (0 : Int)), (0, 1), (0, 2)] ∈
            [['c', 'a', 't']]) := by
  have h := find_length_n_paths_sound [[['c'], ['a'], ['t']]]
    [['c', 'a', 't']] 3 [((0 : Int), (0 : Int)), (0, 1), (0, 2)]
    (by unfold Rectangular; decide) (by decide)
  simpa using h

/-- C2: on a rectangular board with non-empty cell symbols,
`find_length_n_words` returns exactly the valid simple paths whose spelled
word has character length exactly `n` and is in the word collection (prefix
pruning removes no valid result). -/
theorem find_length_n_words_exact (board : Board) (words : List Word)
    (n : Int) (p : BPath) (hrect : Rectangular board)
    (hcells : CellsNonempty board) :
    p ∈ findLengthNWords n board words ↔
      (ValidPath board p ∧ ((spelledWord board p).length : Int) = n ∧
        spelledWord board p ∈ words) := by
  constructor
  · intro hp
    rw [findLengthNWords, List.mem_map] at hp
    obtain ⟨⟨p', w⟩, hmem, rfl⟩ := hp
    obtain ⟨hstop, hvalid, hww, hwords⟩ :=
      backtrackingStart_sound _ _ _ _ _ _ hrect hmem
    rw [stopWordLen, beq_iff_eq] at hstop
    rw [hww] at hwords hstop
    exact ⟨hvalid, hstop, hwords⟩
  · intro ⟨hvalid, hlen, hw⟩
    rw [findLengthNWords, List.mem_map]
    exact ⟨(p, spelledWord board p),
      backtrackingStart_complete board n words p hrect hcells hvalid hw hlen,
      rfl⟩

/-- Witness for C2 on the spec's example board: the path spelling "at" is
returned by the word-length-2 search. -/
theorem find_length_n_words_exact_witness :
    ([((0 : Int), (1 : Int)), (0, 2)] : BPath) ∈
      findLengthNWords 2 [[['c'], ['a'], ['t']]]
        [['c', 'a', 't'], ['a', 't']] := by
  refine (find_length_n_words_exact [[['c'], ['a'], ['t']]]
    [['c', 'a', 't'], ['a', 't']] 2 [((0 : Int), (1 : Int)), (0, 2)]
    (by unfold Rectangular; decide) (by unfold CellsNonempty; decide)).mpr ?_
  refine ⟨⟨by simp, by decide, by decide, by decide⟩, by decide, by decide⟩

/-- Keys of the dict after an insertion: unchanged for a known word, the new
word appended otherwise. -/
theorem dictInsert_keys (w : Word) (p : BPath) :
    ∀ d, (dictInsert d w p).map Prod.fst =
      if w ∈ d.map Prod.fst then d.map Prod.fst
      else d.map Prod.fst ++ [w] := by
  intro d
  induction d with
  | nil => simp [dictInsert]
  | cons e rest ih =>
    obtain ⟨w', ps⟩ := e
    by_cases hw : w' = w
    · subst hw
      simp [dictInsert]
    · rw [dictInsert, if_neg hw]
      simp only [List.map_cons, List.mem_cons]
      rw [ih]
      by_cases hmem : w ∈ rest.map Prod.fst
      · rw [if_pos hmem, if_pos (Or.inr hmem)]
      · rw [if_neg hmem, if_neg (by
          intro hcontra
          rcases hcontra with hcontra | hcontra
          · exact hw hcontra.symm
          · exact hmem hcontra)]
        simp

/-- Insertion preserves distinctness of the dict's keys. -/
theorem dictInsert_keys_nodup (d : List (Word × List BPath)) (w : Word)
    (p : BPath) (hnd : (d.map Prod.fst).Nodup) :
    ((dictInsert d w p).map Prod.fst).Nodup := by
  rw [dictInsert_keys]
  by_cases hmem : w ∈ d.map Prod.fst
  · rw [if_pos hmem]; exact hnd
  · rw [if_neg hmem]
    rw [List.nodup_append]
    exact ⟨hnd, List.nodup_singleton _, by
      intro a ha hb
      rw [List.mem_singleton] at hb
      subst hb
      exact hmem ha⟩

/-- Looking up the inserted word returns its previous paths with the new one
appended. -/
theorem dictLookup_insert_self (w : Word) (p : BPath) :
    ∀ d, dictLookup w (dictInsert d w p) =
      some ((dictLookup w d).getD [] ++ [p]) := by
  intro d
  induction d with
  | nil => simp [dictInsert, dictLookup]
  | cons e rest ih =>
    obtain ⟨w', ps⟩ := e
    by_cases hw : w' = w
    · subst hw
      simp [dictInsert, dictLookup]
    · rw [dictInsert, if_neg hw, dictLookup, if_neg hw, dictLookup, if_neg hw]
      exact ih

/-- Looking up a different word is unaffected by an insertion. -/
theorem dictLookup_insert_other (w w' : Word) (p : BPath) (hne : w' ≠ w) :
    ∀ d, dictLookup w' (dictInsert d w p) = dictLookup w' d := by
  intro d
  induction d with
  | nil => simp [dictInsert, dictLookup, hne.symm]
  | cons e rest ih =>
    obtain ⟨w0, ps⟩ := e
    by_cases hw : w0 = w
    · subst hw
      simp [dictInsert, dictLookup, hne.symm]
    · by_cases hw0 : w0 = w'
      · subst hw0
        simp [dictInsert, dictLookup, hw]
      · simp [dictInsert, dictLookup, hw, hw0, ih]

/-- With distinct keys, membership of an entry determines its lookup. -/
theorem dictLookup_of_mem (w : Word) (ps : List BPath) :
    ∀ d, (d.map Prod.fst).Nodup → (w, ps) ∈ d → dictLookup w d = some ps := by
  intro d
  induction d with
  | nil => intro _ h; simp at h
  | cons e rest ih =>
    obtain ⟨w0, ps0⟩ := e
    intro hnd hmem
    rw [List.map_cons, List.nodup_cons] at hnd
    rw [List.mem_cons] at hmem
    rcases hmem with hmem | hmem
    · rw [Prod.mk.injEq] at hmem
      obtain ⟨h1, h2⟩ := hmem
      subst h1
      subst h2
      rw [dictLookup, if_pos rfl]
    · by_cases hw : w0 = w
      · subst hw
        exact absurd (List.mem_map_of_mem Prod.fst hmem) hnd.1
      · rw [dictLookup, if_neg hw]
        exact ih hnd.2 hmem

/-- Keys present after folding the event stream into the dict: the initial
keys plus every event word. -/
theorem foldl_dictInsert_keys_mem (w : Word) :
    ∀ (evs : List (BPath × Word)) (d : List (Word × List BPath)),
      w ∈ ((evs.foldl (fun d e => dictInsert d e.2 e.1) d).map Prod.fst) ↔
        w ∈ d.map Prod.fst ∨ w ∈ evs.map Prod.snd := by
  intro evs
  induction evs with
  | nil => intro d; simp
  | cons e evs ih =>
    intro d
    rw [List.foldl_cons, ih]
    have hkeys : w ∈ ((dictInsert d e.2 e.1).map Prod.fst) ↔
        w ∈ d.map Prod.fst ∨ w = e.2 := by
      rw [dictInsert_keys]
      by_cases hmem : e.2 ∈ d.map Prod.fst
      · rw [if_pos hmem]
        constructor
        · exact Or.inl
        · intro h
          rcases h with h | h
          · exact h
          · subst h; exact hmem
      · rw [if_neg hmem]
        simp [or_comm]
    rw [hkeys]
    simp [or_assoc, or_comm, or_left_comm]

/-- Folding the event stream preserves distinctness of the dict's keys. -/
theorem foldl_dictInsert_keys_nodup :
    ∀ (evs : List (BPath × Word)) (d : List (Word × List BPath)),
      (d.map Prod.fst).Nodup →
      (((evs.foldl (fun d e => dictInsert d e.2 e.1) d)).map Prod.fst).Nodup := by
  intro evs
  induction evs with
  | nil => intro d h; exact h
  | cons e evs ih =>
    intro d hnd
    rw [List.foldl_cons]
    exact ih _ (dictInsert_keys_nodup d e.2 e.1 hnd)

/-- The entry of a word after folding the event stream: the initial entry
followed by that word's events in traversal order. -/
theorem foldl_dictInsert_lookup :
    ∀ (evs : List (BPath × Word)) (d : List (Word × List BPath)) (w : Word)
      (ps : List BPath),
      dictLookup w (evs.foldl (fun d e => dictInsert d e.2 e.1) d) = some ps →
      ps = (dictLookup w d).getD [] ++ eventsFor w evs := by
  intro evs
  induction evs with
  | nil =>
    intro d w ps h
    rw [List.foldl_nil] at h
    simp [eventsFor, h]
  | cons e evs ih =>
    intro d w ps h
    rw [List.foldl_cons] at h
    have hps := ih _ _ _ h
    by_cases hw : e.2 = w
    · subst hw
      rw [dictLookup_insert_self, Option.getD_some] at hps
      rw [hps]
      have hev : eventsFor e.2 (e :: evs) = e.1 :: eventsFor e.2 evs := by
        simp [eventsFor]
      rw [hev, List.append_assoc, List.singleton_append]
    · rw [dictLookup_insert_other e.2 w e.1 (fun hc => hw hc.symm) d] at hps
      rw [hps]
      have hev : eventsFor w (e :: evs) = eventsFor w evs := by
        simp [eventsFor, hw]
      rw [hev]

/-- `eventsFor` membership unfolds to event membership. -/
theorem mem_eventsFor (q : BPath) (w : Word) (evs : List (BPath × Word)) :
    q ∈ eventsFor w evs ↔ (q, w) ∈ evs := by
  rw [eventsFor, List.mem_filterMap]
  constructor
  · intro ⟨e, he, heq⟩
    by_cases hw : e.2 = w
    · rw [if_pos hw] at heq
      rw [Option.some.injEq] at heq
      have : e = (q, w) := by
        obtain ⟨e1, e2⟩ := e
        simp only at hw heq
        rw [hw, heq]
      rw [← this]
      exact he
    · rw [if_neg hw] at heq
      exact absurd heq (by simp)
  · intro h
    exact ⟨(q, w), h, by simp⟩

/-- The fold of Python `max(lst, key=len)` returns the first element of
maximal length among the accumulator followed by the list. -/
theorem foldl_pyMax_firstMax :
    ∀ (l : List BPath) (b : BPath),
      ∃ pre suf,
        b :: l = pre ++
          (l.foldl (fun best q => if best.length < q.length then q else best)
            b) :: suf ∧
        (∀ q ∈ pre, q.length <
          (l.foldl (fun best q => if best.length < q.length then q else best)
            b).length) ∧
        (∀ q ∈ suf, q.length ≤
          (l.foldl (fun best q => if best.length < q.length then q else best)
            b).length) := by
  intro l
  induction l with
  | nil =>
    intro b
    exact ⟨[], [], by simp, by simp, by simp⟩
  | cons q l ih =>
    intro b
    rw [List.foldl_cons]
    by_cases hlt : b.length < q.length
    · rw [if_pos hlt]
      obtain ⟨pre, suf, heq, hpre, hsuf⟩ := ih q
      refine ⟨b :: pre, suf, by rw [List.cons_append, ← heq], ?_, hsuf⟩
      intro x hx
      rw [List.mem_cons] at hx
      rcases hx with rfl | hx
      · -- b.length < result: result ≥ q.length > b.length
        have hq : q.length ≤ (List.foldl
            (fun best q => if best.length < q.length then q else best) q
              l).length := by
          rcases (List.mem_append.mp (heq ▸ List.mem_cons_self q l)) with h | h
          · exact le_of_lt (hpre q h)
          · rw [List.mem_cons] at h
            rcases h with h | h
            · exact le_of_eq (congrArg List.length h)
            · exact hsuf q h
        omega
      · exact hpre x hx
    · rw [if_neg hlt]
      obtain ⟨pre, suf, heq, hpre, hsuf⟩ := ih b
      cases pre with
      | nil =>
        rw [List.nil_append] at heq
        rw [List.cons.injEq] at heq
        refine ⟨[], q :: suf, ?_, by simp, ?_⟩
        · rw [List.nil_append, ← heq.1, heq.2]
        · intro x hx
          rw [List.mem_cons] at hx
          rcases hx with h | hx
          · rw [h, ← heq.1]; omega
          · exact hsuf x hx
      | cons p0 pre =>
        rw [List.cons_append, List.cons.injEq] at heq
        refine ⟨p0 :: q :: pre, suf,
          by rw [List.cons_append, List.cons_append, ← heq.2, heq.1], ?_, hsuf⟩
        intro x hx
        rw [List.mem_cons, List.mem_cons] at hx
        rcases hx with h | h | hx
        · rw [h]
          exact hpre p0 (List.mem_cons_self _ _)
        · have hb := hpre p0 (List.mem_cons_self _ _)
          rw [← heq.1] at hb
          rw [h]
          omega
        · exact hpre x (List.mem_cons_of_mem _ hx)

/-- `pyMaxByLen` of a non-empty list is its first element of maximal
length. -/
theorem pyMaxByLen_spec (ps : List BPath) (hne : ps ≠ []) :
    ∃ pre suf, ps = pre ++ (pyMaxByLen ps) :: suf ∧
      (∀ q ∈ pre, q.length < (pyMaxByLen ps).length) ∧
      (∀ q ∈ suf, q.length ≤ (pyMaxByLen ps).length) := by
  cases ps with
  | nil => exact absurd rfl hne
  | cons p rest =>
    rw [pyMaxByLen]
    exact foldl_pyMax_firstMax rest p

/-- Python `max(lst, key=len)` of a non-empty list returns one of its
elements. -/
theorem pyMaxByLen_mem (ps : List BPath) (hne : ps ≠ []) :
    pyMaxByLen ps ∈ ps := by
  obtain ⟨pre, suf, heq, _, _⟩ := pyMaxByLen_spec ps hne
  nth_rewrite 1 [heq]
  exact List.mem_append.mpr (Or.inr (List.mem_cons_self _ _))

/-- Every event of the multi-pass search of `max_score_paths` is a valid path
spelling its word, which is in the collection. -/
theorem maxScoreEvents_sound (board : Board) (words : List Word)
    (p : BPath) (w : Word) (hrect : Rectangular board)
    (hmem : (p, w) ∈ maxScoreEvents board words) :
    ValidPath board p ∧ w = spelledWord board p ∧ w ∈ words := by
  rw [maxScoreEvents, List.mem_flatten] at hmem
  obtain ⟨l, hl, hpl⟩ := hmem
  rw [List.mem_map] at hl
  obtain ⟨len, _, rfl⟩ := hl
  have h := backtrackingStart_sound _ _ _ _ _ _ hrect hpl
  exact ⟨h.2.1, h.2.2.1, h.2.2.2⟩

/-- Every valid path spelling a collection word appears among the events of
`max_score_paths`, collected by the pass for its own word length. -/
theorem maxScoreEvents_complete (board : Board) (words : List Word)
    (q : BPath) (hrect : Rectangular board) (hcells : CellsNonempty board)
    (hvalid : ValidPath board q) (hw : spelledWord board q ∈ words) :
    (q, spelledWord board q) ∈ maxScoreEvents board words := by
  rw [maxScoreEvents, List.mem_flatten]
  refine ⟨backtrackingStart stopWordLen
    (((spelledWord board q).length : Int)) board words, ?_, ?_⟩
  · exact List.mem_map_of_mem _
      (List.mem_dedup.mpr (List.mem_map_of_mem _ hw))
  · exact backtrackingStart_complete board _ words q hrect hcells hvalid hw
      rfl

/-- C3: `max_score_paths` returns at most one path per distinct spelled word;
each returned path is a valid path spelling a collection word, with length at
least that of every valid path spelling the same word, and it is the first of
maximal length among that word's collected paths in traversal order. -/
theorem max_score_paths_spec (board : Board) (words : List Word)
    (hrect : Rectangular board) (hcells : CellsNonempty board) :
    ((maxScorePaths board words).map (spelledWord board)).Nodup ∧
    ∀ p ∈ maxScorePaths board words,
      ValidPath board p ∧ spelledWord board p ∈ words ∧
      (∀ q, ValidPath board q →
        spelledWord board q = spelledWord board p → q.length ≤ p.length) ∧
      ∃ pre suf,
        eventsFor (spelledWord board p) (maxScoreEvents board words) =
          pre ++ p :: suf ∧
        (∀ q ∈ pre, q.length < p.length) ∧
        (∀ q ∈ suf, q.length ≤ p.length) := by
  have hkeysnodup : (((maxScoreEvents board words).foldl
      (fun d e => dictInsert d e.2 e.1) []).map Prod.fst).Nodup :=
    foldl_dictInsert_keys_nodup _ [] (by simp)
  have hentry : ∀ w ps, (w, ps) ∈ (maxScoreEvents board words).foldl
      (fun d e => dictInsert d e.2 e.1) [] →
      ps = eventsFor w (maxScoreEvents board words) ∧ ps ≠ [] := by
    intro w ps hmem
    have hlook := dictLookup_of_mem w ps _ hkeysnodup hmem
    have hps := foldl_dictInsert_lookup _ [] w ps hlook
    simp only [dictLookup, Option.getD_none, List.nil_append] at hps
    refine ⟨hps, ?_⟩
    have hkey : w ∈ ((maxScoreEvents board words).foldl
        (fun d e => dictInsert d e.2 e.1) []).map Prod.fst :=
      List.mem_map_of_mem Prod.fst hmem
    rw [foldl_dictInsert_keys_mem] at hkey
    rcases hkey with hkey | hkey
    · simp at hkey
    · rw [List.mem_map] at hkey
      obtain ⟨e, he, hew⟩ := hkey
      have hmem1 : e.1 ∈ eventsFor w (maxScoreEvents board words) :=
        (mem_eventsFor _ _ _).mpr (by rw [← hew]; exact he)
      rw [hps]
      exact List.ne_nil_of_mem hmem1
  have hspell : ∀ w ps, (w, ps) ∈ (maxScoreEvents board words).foldl
      (fun d e => dictInsert d e.2 e.1) [] →
      spelledWord board (pyMaxByLen ps) = w := by
    intro w ps hmem
    obtain ⟨hps, hne⟩ := hentry w ps hmem
    have hmax_mem : pyMaxByLen ps ∈ eventsFor w (maxScoreEvents board words) := by
      rw [← hps]
      exact pyMaxByLen_mem ps hne
    have hev := (mem_eventsFor _ _ _).mp hmax_mem
    exact (maxScoreEvents_sound board words _ _ hrect hev).2.1.symm
  constructor
  · have hmapeq : (maxScorePaths board words).map (spelledWord board) =
        ((maxScoreEvents board words).foldl
          (fun d e => dictInsert d e.2 e.1) []).map Prod.fst := by
      rw [maxScorePaths, List.map_map]
      exact List.map_congr_left fun e he => hspell e.1 e.2 he
    rw [hmapeq]
    exact hkeysnodup
  · intro p hp
    rw [maxScorePaths, List.mem_map] at hp
    obtain ⟨e, he, rfl⟩ := hp
    obtain ⟨hps, hne⟩ := hentry e.1 e.2 he
    have hsp : spelledWord board (pyMaxByLen e.2) = e.1 := hspell e.1 e.2 he
    have hmax_mem : pyMaxByLen e.2 ∈
        eventsFor e.1 (maxScoreEvents board words) := by
      rw [← hps]
      exact pyMaxByLen_mem e.2 hne
    have hev := (mem_eventsFor _ _ _).mp hmax_mem
    have hsound := maxScoreEvents_sound board words _ _ hrect hev
    refine ⟨hsound.1, by rw [hsp]; exact hsound.2.2, ?_, ?_⟩
    · intro q hq hqw
      have hqmem : (q, spelledWord board q) ∈ maxScoreEvents board words :=
        maxScoreEvents_complete board words q hrect hcells hq
          (by rw [hqw, hsp]; exact hsound.2.2)
      have hqev : q ∈ eventsFor e.1 (maxScoreEvents board words) := by
        rw [mem_eventsFor]
        rw [hqw, hsp] at hqmem
        exact hqmem
      rw [← hps] at hqev
      obtain ⟨pre, suf, heq, hpre, hsuf⟩ := pyMaxByLen_spec e.2 hne
      rw [heq] at hqev
      rcases List.mem_append.mp hqev with h | h
      · exact le_of_lt (hpre q h)
      · rcases List.mem_cons.mp h with h | h
        · exact le_of_eq (congrArg List.length h)
        · exact hsuf q h
    · obtain ⟨pre, suf, heq, hpre, hsuf⟩ := pyMaxByLen_spec e.2 hne
      refine ⟨pre, suf, ?_, hpre, hsuf⟩
      rw [hsp, ← hps]
      exact heq

/-- Witness for C3: on the spec's example board the spelled words of the
returned best paths are pairwise distinct. -/
theorem max_score_paths_spec_witness :
    ((maxScorePaths [[['c'], ['a'], ['t']]]
        [['c', 'a', 't'], ['a', 't']]).map
      (spelledWord [[['c'], ['a'], ['t']]])).Nodup :=
  (max_score_paths_spec [[['c'], ['a'], ['t']]] [['c', 'a', 't'], ['a', 't']]
    (by unfold Rectangular; decide) (by unfold CellsNonempty; decide)).1

/-- An empty word collection yields no events at all. -/
theorem backtrackingStart_nil_words (stop : Int → BPath → Word → Bool)
    (n : Int) (board : Board) :
    backtrackingStart stop n board [] = [] := by
  rw [backtrackingStart_eq]
  rw [List.flatten_eq_nil_iff]
  intro l hl
  rw [List.mem_map] at hl
  obtain ⟨ri, _, rfl⟩ := hl
  rw [List.flatten_eq_nil_iff]
  intro l2 hl2
  rw [List.mem_map] at hl2
  obtain ⟨ci, _, rfl⟩ := hl2
  simp [startTry, filterWordsSetByPfx]

/-- C4: a requested length of at most 0 yields empty results from both
length-based searches, and an empty word collection yields empty results from
all three search modes. -/
theorem search_failure_semantics (board : Board) (words : List Word) (n : Int)
    (hrect : Rectangular board) (hcells : CellsNonempty board) :
    (n ≤ 0 →
      findLengthNPaths n board words = [] ∧
      findLengthNWords n board words = []) ∧
    (words = [] →
      findLengthNPaths n board words = [] ∧
      findLengthNWords n board words = [] ∧
      maxScorePaths board words = []) := by
  constructor
  · intro hn
    constructor
    · rw [List.eq_nil_iff_forall_not_mem]
      intro p hp
      rw [findLengthNPaths, List.mem_map] at hp
      obtain ⟨⟨p', w⟩, hmem, rfl⟩ := hp
      obtain ⟨hstop, hvalid, _, _⟩ :=
        backtrackingStart_sound _ _ _ _ _ _ hrect hmem
      rw [stopPathLen, beq_iff_eq] at hstop
      have hpos : 1 ≤ p'.length := List.length_pos.mpr hvalid.1
      omega
    · rw [List.eq_nil_iff_forall_not_mem]
      intro p hp
      rw [findLengthNWords, List.mem_map] at hp
      obtain ⟨⟨p', w⟩, hmem, rfl⟩ := hp
      obtain ⟨hstop, hvalid, hww, _⟩ :=
        backtrackingStart_sound _ _ _ _ _ _ hrect hmem
      rw [stopWordLen, beq_iff_eq] at hstop
      have hwne : w ≠ [] := by
        rw [hww]
        exact spelledWord_ne_nil board p' hrect hcells hvalid.1 hvalid.2.2.2
      have hpos : 1 ≤ w.length := List.length_pos.mpr hwne
      omega
  · intro hwords
    subst hwords
    refine ⟨?_, ?_, ?_⟩
    · rw [findLengthNPaths, backtrackingStart_nil_words]
      rfl
    · rw [findLengthNWords, backtrackingStart_nil_words]
      rfl
    · rfl

/-- Witness for C4 at length 0 on a one-cell board. -/
theorem search_failure_semantics_witness :
    findLengthNPaths 0 [[['c']]] [['c']] = [] ∧
      findLengthNWords 0 [[['c']]] [['c']] = [] :=
  (search_failure_semantics [[['c']]] [['c']] 0
    (by unfold Rectangular; decide) (by unfold CellsNonempty; decide)).1
    (le_refl 0)

/-- The add branch of `update_word_and_path`: when the clicked coordinate is
not the last of the current path, it is appended and its symbol concatenated,
with no membership check. -/
theorem updateWordAndPath_add (m : GameModel) (c : Coord) (s : Sym)
    (hval : getValueByCoordinate m.board c = some s)
    (hlast : m.currentPath.getLast? ≠ some c) :
    updateWordAndPath m c = some { m with
      currentWord := m.currentWord ++ s,
      currentPath := m.currentPath ++ [c] } := by
  simp only [updateWordAndPath, hval]
  rw [if_neg hlast]

/-- The undo branch of `update_word_and_path`: clicking the last coordinate
removes its first occurrence from the path and truncates the word by the
symbol's length. -/
theorem updateWordAndPath_undo (m : GameModel) (c : Coord) (s : Sym)
    (hval : getValueByCoordinate m.board c = some s)
    (hlast : m.currentPath.getLast? = some c) :
    updateWordAndPath m c = some { m with
      currentPath := m.currentPath.erase c,
      currentWord := pySliceTo m.currentWord
        ((m.currentWord.length : Int) - (s.length : Int)) } := by
  simp only [updateWordAndPath, hval]
  rw [if_pos hlast]

/-- C5 counterexample: toggling a coordinate that is in the current path but
is not its last element is NOT a no-op; the source's add branch appends it
again, changing the path and the word. -/
theorem toggle_nonlast_not_noop_cex :
    (((0 : Int), (0 : Int)) ∈
      ({ board := [[['a'], ['b']]], wordsCollection := [], wordsFound := [],
         currentWord := ['a', 'b'], currentPath := [(0, 0), (0, 1)],
         score := 0 } : GameModel).currentPath) ∧
    (({ board := [[['a'], ['b']]], wordsCollection := [], wordsFound := [],
        currentWord := ['a', 'b'], currentPath := [(0, 0), (0, 1)],
        score := 0 } : GameModel).currentPath.getLast? ≠
      some ((0 : Int), (0 : Int))) ∧
    ((updateWordAndPath
      { board := [[['a'], ['b']]], wordsCollection := [], wordsFound := [],
        currentWord := ['a', 'b'], currentPath := [(0, 0), (0, 1)],
        score := 0 } ((0 : Int), (0 : Int))).map GameModel.currentPath ≠
      some [(0, 0), (0, 1)]) := by
  decide

/-- C5 amended: toggling a coordinate already in the path but not last
appends the coordinate and its symbol (no-op protection is left to the
caller's `get_buttons_to_enable`). -/
theorem toggle_nonlast_appends (m : GameModel) (c : Coord) (s : Sym)
    (hval : getValueByCoordinate m.board c = some s)
    (_hmem : c ∈ m.currentPath)
    (hlast : m.currentPath.getLast? ≠ some c) :
    updateWordAndPath m c = some { m with
      currentWord := m.currentWord ++ s,
      currentPath := m.currentPath ++ [c] } :=
  updateWordAndPath_add m c s hval hlast

/-- Witness for the amended C5. -/
theorem toggle_nonlast_appends_witness :
    updateWordAndPath
      { board := [[['a'], ['b']]], wordsCollection := [], wordsFound := [],
        currentWord := ['a', 'b'], currentPath := [(0, 0), (0, 1)],
        score := 0 } ((0 : Int), (0 : Int)) =
      some { board := [[['a'], ['b']]], wordsCollection := [],
             wordsFound := [], currentWord := ['a', 'b', 'a'],
             currentPath := [(0, 0), (0, 1), (0, 0)], score := 0 } := by
  have h := toggle_nonlast_appends
    { board := [[['a'], ['b']]], wordsCollection := [], wordsFound := [],
      currentWord := ['a', 'b'], currentPath := [(0, 0), (0, 1)],
      score := 0 } ((0 : Int), (0 : Int)) ['a'] (by decide) (by decide)
    (by decide)
  rw [h]
  decide

/-- Membership in the accumulating filter loop of `get_buttons_to_enable`. -/
theorem mem_foldl_filter_append {β : Type} (P : β → Bool) (g : β → Coord) :
    ∀ (ds : List β) (acc : List Coord) (x : Coord),
      x ∈ ds.foldl (fun acc d => if P d then acc ++ [g d] else acc) acc ↔
        x ∈ acc ∨ ∃ d ∈ ds, P d = true ∧ x = g d := by
  intro ds
  induction ds with
  | nil => intro acc x; simp
  | cons d ds ih =>
    intro acc x
    rw [List.foldl_cons]
    by_cases hP : P d = true
    · rw [if_pos hP, ih]
      simp only [List.mem_append, List.mem_singleton, List.mem_cons,
        List.not_mem_nil, or_false]
      constructor
      · intro h
        rcases h with (h | h) | ⟨d', hd', hx⟩
        · exact Or.inl h
        · exact Or.inr ⟨d, Or.inl rfl, hP, h⟩
        · exact Or.inr ⟨d', Or.inr hd', hx⟩
      · intro h
        rcases h with h | ⟨d', hd', hx⟩
        · exact Or.inl (Or.inl h)
        · rcases hd' with hd' | hd'
          · subst hd'
            exact Or.inl (Or.inr hx.2)
          · exact Or.inr ⟨d', hd', hx⟩
    · rw [if_neg hP, ih]
      constructor
      · intro h
        rcases h with h | ⟨d', hd', hx⟩
        · exact Or.inl h
        · exact Or.inr ⟨d', List.mem_cons_of_mem _ hd', hx⟩
      · intro h
        rcases h with h | ⟨d', hd', hx⟩
        · exact Or.inl h
        · rcases List.mem_cons.mp hd' with hd' | hd'
          · subst hd'
            exact absurd hx.1 hP
          · exact Or.inr ⟨d', hd', hx⟩

/-- C6 counterexample: on an empty current path `get_buttons_to_enable`
raises (modelled as `none`) instead of returning all grid coordinates. -/
theorem buttons_empty_path_cex :
    ({ board := [[['a']]], wordsCollection := [], wordsFound := [],
       currentWord := [], currentPath := [], score := 0 } :
        GameModel).currentPath = [] ∧
    getButtonsToEnable
      { board := [[['a']]], wordsCollection := [], wordsFound := [],
        currentWord := [], currentPath := [], score := 0 } = none := by
  decide

/-- C6 amended: on a non-empty current path, `get_buttons_to_enable` returns
exactly the last cell plus every in-bounds 8-neighbour of the last cell not
already in the path; on an empty path it fails instead of returning all grid
coordinates. -/
theorem buttons_to_enable_spec (m : GameModel) (last : Coord)
    (hlast : m.currentPath.getLast? = some last) :
    getButtonsToEnable m ≠ none ∧
    ∀ x : Coord, x ∈ (getButtonsToEnable m).getD [] ↔
      (x = last ∨ (areNeighbours last x = true ∧
        isCoordinateInBoundaries m.board x = true ∧ x ∉ m.currentPath)) := by
  simp only [getButtonsToEnable, hlast]
  refine ⟨by simp, ?_⟩
  intro x
  rw [Option.getD_some]
  have hiff := mem_foldl_filter_append
    (fun delta : Int × Int => isCoordinateInBoundaries m.board
      (last.1 + delta.1, last.2 + delta.2) &&
        decide ((last.1 + delta.1, last.2 + delta.2) ∉ m.currentPath))
    (fun delta : Int × Int => (last.1 + delta.1, last.2 + delta.2))
    NEIGHBOURS_DELTA [last] x
  rw [List.mem_singleton] at hiff
  refine hiff.trans ?_
  constructor
  · intro h
    rcases h with h | ⟨d, hd, hcond, hx⟩
    · exact Or.inl h
    · rw [Bool.and_eq_true, decide_eq_true_eq] at hcond
      refine Or.inr ⟨?_, by rw [hx]; exact hcond.1, by rw [hx]; exact hcond.2⟩
      rw [areNeighbours_iff]
      exact ⟨d, hd, by rw [findNeighbourCoordinate, hx]⟩
  · intro h
    rcases h with h | ⟨hnb, hin, hnmem⟩
    · exact Or.inl h
    · rw [areNeighbours_iff] at hnb
      obtain ⟨d, hd, hfind⟩ := hnb
      rw [findNeighbourCoordinate] at hfind
      refine Or.inr ⟨d, hd, ?_, hfind.symm⟩
      rw [Bool.and_eq_true, decide_eq_true_eq]
      rw [hfind]
      exact ⟨hin, hnmem⟩

/-- Witness for the amended C6: after pressing (0,0) on the 1x3 example
board, the enabled buttons are characterized as claimed; (0,1) is enabled. -/
theorem buttons_to_enable_spec_witness :
    (getButtonsToEnable
      { board := [[['c'], ['a'], ['t']]], wordsCollection := [],
        wordsFound := [], currentWord := ['c'], currentPath := [(0, 0)],
        score := 0 } ≠ none) ∧
    (((0 : Int), (1 : Int)) ∈ (getButtonsToEnable
      { board := [[['c'], ['a'], ['t']]], wordsCollection := [],
        wordsFound := [], currentWord := ['c'], currentPath := [(0, 0)],
        score := 0 }).getD [] ↔
      (((0 : Int), (1 : Int)) = ((0 : Int), (0 : Int)) ∨
        (areNeighbours ((0 : Int), (0 : Int)) ((0 : Int), (1 : Int)) = true ∧
          isCoordinateInBoundaries [[['c'], ['a'], ['t']]]
            ((0 : Int), (1 : Int)) = true ∧
          ((0 : Int), (1 : Int)) ∉
            ([(0, 0)] : BPath)))) := by
  refine ⟨(buttons_to_enable_spec _ ((0 : Int), (0 : Int)) (by decide)).1, ?_⟩
  exact (buttons_to_enable_spec
    { board := [[['c'], ['a'], ['t']]], wordsCollection := [],
      wordsFound := [], currentWord := ['c'], currentPath := [(0, 0)],
      score := 0 } ((0 : Int), (0 : Int)) (by decide)).2 ((0 : Int), (1 : Int))

/-- C7: `check_word` classifies the current word sequentially as NotAWord
(absent from the collection), AlreadyFound (already credited), or newly found
with the score increased by the squared path length and the outcome picked by
word length (short below 6, long otherwise); the first two cases leave the
state unchanged. -/
theorem check_word_spec (m : GameModel) :
    (m.currentWord ∉ m.wordsCollection →
      checkWord m = (CheckOutcome.notAWord, m)) ∧
    (m.currentWord ∈ m.wordsCollection → m.currentWord ∈ m.wordsFound →
      checkWord m = (CheckOutcome.alreadyFound, m)) ∧
    (m.currentWord ∈ m.wordsCollection → m.currentWord ∉ m.wordsFound →
      checkWord m =
        ((if m.currentWord.length < 6 then CheckOutcome.foundShort
          else CheckOutcome.foundLong),
         { m with wordsFound := m.wordsFound ++ [m.currentWord],
                  score := m.score + (m.currentPath.length : Int) ^ 2 })) := by
  refine ⟨?_, ?_, ?_⟩
  · intro h
    rw [checkWord, if_pos h]
  · intro h1 h2
    rw [checkWord, if_neg (not_not_intro h1), if_pos h2]
  · intro h1 h2
    rw [checkWord, if_neg (not_not_intro h1), if_neg h2]
    split
    · rfl
    · rfl

/-- Witness for C7: finding "cat" on the example board scores 9 and reports
the short-word outcome. -/
theorem check_word_spec_witness :
    checkWord
      { board := [[['c'], ['a'], ['t']]],
        wordsCollection := [['c', 'a', 't']], wordsFound := [],
        currentWord := ['c', 'a', 't'], currentPath := [(0, 0), (0, 1), (0, 2)],
        score := 0 } =
      (CheckOutcome.foundShort,
       { board := [[['c'], ['a'], ['t']]],
         wordsCollection := [['c', 'a', 't']],
         wordsFound := [['c', 'a', 't']], currentWord := ['c', 'a', 't'],
         currentPath := [(0, 0), (0, 1), (0, 2)], score := 9 }) := by
  have h := (check_word_spec
    { board := [[['c'], ['a'], ['t']]],
      wordsCollection := [['c', 'a', 't']], wordsFound := [],
      currentWord := ['c', 'a', 't'], currentPath := [(0, 0), (0, 1), (0, 2)],
      score := 0 }).2.2 (by decide) (by decide)
  rw [h]
  decide

/-- C8: toggling a fresh coordinate and then toggling it again restores the
current path and word exactly (whenever both board lookups succeed, which is
the regime in which the source does not raise). -/
theorem toggle_toggle_roundtrip (m : GameModel) (c : Coord)
    (_hnd : m.currentPath.Nodup) (hnot : c ∉ m.currentPath)
    (m1 m2 : GameModel)
    (h1 : updateWordAndPath m c = some m1)
    (h2 : updateWordAndPath m1 c = some m2) :
    m2.currentPath = m.currentPath ∧ m2.currentWord = m.currentWord := by
  cases hval : getValueByCoordinate m.board c with
  | none =>
    rw [updateWordAndPath, hval] at h1
    exact absurd h1 (by simp)
  | some s =>
    have hguard : m.currentPath.getLast? ≠ some c := fun hg =>
      hnot (List.mem_of_mem_getLast? hg)
    rw [updateWordAndPath_add m c s hval hguard, Option.some.injEq] at h1
    subst h1
    have hval1 : getValueByCoordinate
        ({ m with currentWord := m.currentWord ++ s,
                  currentPath := m.currentPath ++ [c] } : GameModel).board c =
        some s := hval
    have hlast1 : ({ m with currentWord := m.currentWord ++ s,
                            currentPath := m.currentPath ++ [c] } :
          GameModel).currentPath.getLast? = some c :=
      List.getLast?_concat _
    rw [updateWordAndPath_undo _ c s hval1 hlast1,
      Option.some.injEq] at h2
    subst h2
    constructor
    · show (m.currentPath ++ [c]).erase c = m.currentPath
      rw [List.erase_append_right _ hnot]
      simp
    · show pySliceTo (m.currentWord ++ s)
        (((m.currentWord ++ s).length : Int) - (s.length : Int)) =
          m.currentWord
      rw [pySliceTo, if_pos (by
        rw [List.length_append]
        push_cast
        omega)]
      have htn : ((((m.currentWord ++ s).length : Int) -
          (s.length : Int)).toNat) = m.currentWord.length := by
        rw [List.length_append]
        omega
      rw [htn]
      exact List.take_left _ _

/-- Witness for C8. -/
theorem toggle_toggle_roundtrip_witness :
    ({ board := [[['a'], ['b']]], wordsCollection := [], wordsFound := [],
       currentWord := ['a', 'b'], currentPath := [(0, 0)],
       score := 0 } : GameModel).currentPath = [((0 : Int), (0 : Int))] ∧
    ({ board := [[['a'], ['b']]], wordsCollection := [], wordsFound := [],
       currentWord := ['a', 'b'], currentPath := [(0, 0)],
       score := 0 } : GameModel).currentWord = ['a', 'b'] := by
  have h := toggle_toggle_roundtrip
    { board := [[['a'], ['b']]], wordsCollection := [], wordsFound := [],
      currentWord := ['a', 'b'], currentPath := [(0, 0)], score := 0 }
    ((0 : Int), (1 : Int)) (by decide) (by decide)
    { board := [[['a'], ['b']]], wordsCollection := [], wordsFound := [],
      currentWord := ['a', 'b', 'b'], currentPath := [(0, 0), (0, 1)],
      score := 0 }
    { board := [[['a'], ['b']]], wordsCollection := [], wordsFound := [],
      currentWord := ['a', 'b'], currentPath := [(0, 0)], score := 0 }
    (by decide) (by decide)
  exact h

/-- C9 counterexample: Python's negative indexing silently returns a value at
a coordinate with negative row and column, instead of failing fast. -/
theorem get_value_negative_index_cex :
    getValueByCoordinate [[['a']]] ((-1 : Int), (-1 : Int)) = some ['a'] := by
  decide

/-- C9 amended: lookups at coordinates with non-negative row/column outside
the dimensions do fail (no value); but negative in-range coordinates wrap
around silently, so "fails fast on every out-of-dimension coordinate" does
not hold. -/
theorem get_value_out_of_range_none (board : Board) (r c : Int)
    (hr : 0 ≤ r) (hc : 0 ≤ c)
    (hout : (board.length : Int) ≤ r ∨
      ((((board.get? r.toNat).getD []).length : Int) ≤ c)) :
    getValueByCoordinate board (r, c) = none := by
  rw [getValueByCoordinate]
  show (pyGet board r).bind (fun row => pyGet row c) = none
  rcases hout with hout | hout
  · have hnone : pyGet board r = none := by
      rw [pyGet_nonneg _ _ hr]
      rw [List.get?_eq_none]
      omega
    rw [hnone, Option.none_bind]
  · rw [pyGet_nonneg _ _ hr]
    cases hrow : board.get? r.toNat with
    | none => rw [Option.none_bind]
    | some row =>
      rw [Option.some_bind]
      rw [pyGet_nonneg _ _ hc]
      rw [List.get?_eq_none]
      rw [hrow] at hout
      rw [Option.getD_some] at hout
      omega

/-- Witness for the amended C9. -/
theorem get_value_out_of_range_none_witness :
    getValueByCoordinate [[['a']]] ((0 : Int), (5 : Int)) = none :=
  get_value_out_of_range_none [[['a']]] 0 5 (by norm_num) (by norm_num)
    (Or.inr (by decide))

/-- The loop of `is_valid_path` on a non-empty chain-adjacent path whose
cells the board can all index: it completes without raising and decides by
membership of the accumulated word. -/
theorem isValidPathGo_spec (board : Board) (words : List Word) :
    ∀ (path : BPath) (word : Word), path ≠ [] →
      chainAdjacent path = true →
      (∀ c ∈ path, (getValueByCoordinate board c).isSome = true) →
      isValidPathGo board words word path =
        if word ++ spelledWord board path ∈ words then
          some (some (word ++ spelledWord board path))
        else some none := by
  intro path
  induction path with
  | nil => intro word h; exact absurd rfl h
  | cons c rest ih =>
    intro word _ hchain hidx
    cases hs : getValueByCoordinate board c with
    | none =>
      have := hidx c (by simp)
      rw [hs] at this
      simp at this
    | some s =>
      have hval : getValueD board c = s := by
        rw [getValueD, hs]
        rfl
      cases rest with
      | nil =>
        simp only [isValidPathGo, hs]
        rw [spelledWord_singleton, hval]
      | cons c2 rest2 =>
        simp only [chainAdjacent, Bool.and_eq_true] at hchain
        simp only [isValidPathGo, hs]
        rw [if_neg (not_not_intro hchain.1)]
        have hsp : word ++ spelledWord board (c :: c2 :: rest2) =
            (word ++ s) ++ spelledWord board (c2 :: rest2) := by
          have hcons : spelledWord board (c :: c2 :: rest2) =
              getValueD board c ++ spelledWord board (c2 :: rest2) := by
            simp [spelledWord]
          rw [hcons, hval, List.append_assoc]
        rw [hsp]
        exact ih (word ++ s) (by simp) hchain.2
          (fun x hx => hidx x (List.mem_cons_of_mem _ hx))

/-- C10: `is_valid_path` returns the spelled word of any non-empty
chain-adjacent path whose cells the board can index and whose spelled word is
in the collection, with no distinctness check on the coordinates — a path
revisiting a cell is still accepted. -/
theorem is_valid_path_no_distinctness (board : Board) (path : BPath)
    (words : List Word) (hne : path ≠ [])
    (hchain : chainAdjacent path = true)
    (hidx : ∀ c ∈ path, (getValueByCoordinate board c).isSome = true)
    (hw : spelledWord board path ∈ words) :
    isValidPath board path words = some (some (spelledWord board path)) := by
  rw [isValidPath, isValidPathGo_spec board words path [] hne hchain hidx]
  rw [List.nil_append]
  rw [if_pos hw]

/-- Witness for C10: a path revisiting (0,0) is still accepted. -/
theorem is_valid_path_no_distinctness_witness :
    isValidPath [[['a'], ['b']]]
        [((0 : Int), (0 : Int)), (0, 1), (0, 0)] [['a', 'b', 'a']] =
      some (some ['a', 'b', 'a']) ∧
    ¬ ([((0 : Int), (0 : Int)), (0, 1), (0, 0)] : BPath).Nodup := by
  constructor
  · have h := is_valid_path_no_distinctness [[['a'], ['b']]]
      [((0 : Int), (0 : Int)), (0, 1), (0, 0)] [['a', 'b', 'a']]
      (by decide) (by decide) (by decide) (by decide)
    rw [h]
    decide
  · decide

end Boggle
